import Mathlib

/-!
Shallow embedding of the bus-mapping crate's EVM-trace parsing layer:
word/address decoding (`EvmWord::from_str`, `MemAddress::from_str`),
the opcode mnemonic table (`Opcode::from_str`, `Opcode::target_and_rw`),
instruction decoding (`Instruction::from_str`), and trace ingestion
(`ExecutionStep::try_from`, the enumerate/map/collect loop of
`parse_execution_trace`).  Fallible Rust functions are modelled with an
explicit result type that distinguishes `Ok`, `Err` and a panic.
-/

/-- Error enum of the crate, with the two variants the sources construct:
`Error::EvmWordParsing` and `Error::OpcodeParsing`. -/
inductive Error where
  | EvmWordParsing
  | OpcodeParsing
deriving DecidableEq

/-- Outcome of a fallible Rust call: `Ok`, `Err`, or a panic
(out-of-bounds index, `expect` on an `Err`, `unimplemented!()`). -/
inductive PResult (α : Type) where
  | ok (val : α)
  | error (e : Error)
  | panicked
deriving DecidableEq

/-- `?`-propagation: errors and panics short-circuit. -/
def PResult.bind {α β : Type} : PResult α → (α → PResult β) → PResult β
  | .ok a, f => f a
  | .error e, _ => .error e
  | .panicked, _ => .panicked

/-- Whether a result is `Ok`. -/
def PResult.isOk {α : Type} : PResult α → Bool
  | .ok _ => true
  | _ => false

/-- Digit value of a character as num-bigint assigns it: `0`-`9`, then
letters of either case starting at 10 (up to 35 for `z`/`Z`). -/
def charDigitVal (c : Char) : Option Nat :=
  if '0' ≤ c ∧ c ≤ '9' then some (c.toNat - '0'.toNat)
  else if 'a' ≤ c ∧ c ≤ 'z' then some (c.toNat - 'a'.toNat + 10)
  else if 'A' ≤ c ∧ c ≤ 'Z' then some (c.toNat - 'A'.toNat + 10)
  else none

/-- A character accepted as a base-16 digit (digit value defined and < 16). -/
def HexDigit (c : Char) : Prop := (charDigitVal c).getD 16 < 16

instance (c : Char) : Decidable (HexDigit c) := by
  unfold HexDigit; infer_instance

/-- The digit-accumulation loop of `BigUint::from_str_radix` at radix 16:
underscores are skipped, any other character must have digit value < 16. -/
def from_str_radix_16_core : List Char → Nat → Option Nat
  | [], acc => some acc
  | c :: rest, acc =>
    if c = '_' then from_str_radix_16_core rest acc
    else
      match charDigitVal c with
      | some d => if d < 16 then from_str_radix_16_core rest (16 * acc + d) else none
      | none => none

/-- num-bigint strips a single leading plus sign, unless it is doubled. -/
def strip_plus (cs : List Char) : List Char :=
  match cs with
  | [] => []
  | c :: rest =>
    if c = '+' then (if rest.head? = some '+' then c :: rest else rest) else c :: rest

/-- Model of `BigUint::from_str_radix(s, 16)`: strip one leading `+`, reject
the empty string and a leading underscore, then run the digit loop. -/
def from_str_radix_16 (s : String) : Option Nat :=
  match strip_plus s.data with
  | [] => none
  | c :: rest => if c = '_' then none else from_str_radix_16_core (c :: rest) 0

/-- Numeric value of a list of hex-digit characters, most significant first. -/
def hexValue (cs : List Char) : Nat :=
  Nat.ofDigits 16 ((cs.map fun c => (charDigitVal c).getD 0).reverse)

/-- `usize::MAX` on the (64-bit) host. -/
def USIZE_MAX : Nat := 2 ^ 64 - 1

/-- `EvmWord(BigUint)`: an exact unbounded unsigned integer. -/
structure EvmWord where
  val : Nat
deriving DecidableEq

/-- `MemAddress(usize)`. -/
structure MemAddress where
  val : Nat
deriving DecidableEq

/-- `GlobalCounter(usize)`. -/
structure GlobalCounter where
  val : Nat
deriving DecidableEq

/-- `ProgramCounter(usize)`. -/
structure ProgramCounter where
  val : Nat
deriving DecidableEq

/-- `EvmWord::from_str`: parse base-16 via `BigUint::from_str_radix`, mapping
a parse failure to `Error::EvmWordParsing`.  No width bound is applied. -/
def EvmWord.from_str (s : String) : PResult EvmWord :=
  match from_str_radix_16 s with
  | some n => .ok ⟨n⟩
  | none => .error .EvmWordParsing

/-- `MemAddress::from_str`: parse base-16, then `try_into` a `usize`; the
`try_into` error is fed through `map_err` into an `Err` on which `.expect`
is called, so an in-range value is `Ok`, a non-numeric string is
`Err(EvmWordParsing)`, and an out-of-`usize`-range value panics. -/
def MemAddress.from_str (s : String) : PResult MemAddress :=
  match from_str_radix_16 s with
  | some n => if n ≤ USIZE_MAX then .ok ⟨n⟩ else .panicked
  | none => .error .EvmWordParsing

/-- `Opcode(u8)`. -/
structure Opcode where
  val : Nat
deriving DecidableEq

/-- The mnemonic → byte arms of `impl FromStr for Opcode`, in source order. -/
def opcodeNameTable : List (String × Nat) :=
  [("STOP", 0x00), ("ADD", 0x01), ("MUL", 0x02), ("SUB", 0x03), ("DIV", 0x04),
   ("SDIV", 0x05), ("MOD", 0x06), ("SMOD", 0x07), ("ADDMOD", 0x08), ("MULMOD", 0x09),
   ("EXP", 0x0a), ("SIGNEXTEND", 0x0b), ("LT", 0x10), ("GT", 0x11), ("SLT", 0x12),
   ("SGT", 0x13), ("EQ", 0x14), ("ISZERO", 0x15), ("AND", 0x16), ("OR", 0x17),
   ("XOR", 0x18), ("NOT", 0x19), ("BYTE", 0x1a), ("CALLDATALOAD", 0x35),
   ("CALLDATASIZE", 0x36), ("CALLDATACOPY", 0x37), ("CODESIZE", 0x38),
   ("CODECOPY", 0x39), ("SHL", 0x1b), ("SHR", 0x1c), ("SAR", 0x1d), ("POP", 0x50),
   ("MLOAD", 0x51), ("MSTORE", 0x52), ("MSTORE8", 0x53), ("JUMP", 0x56),
   ("JUMPI", 0x57), ("PC", 0x58), ("MSIZE", 0x59), ("JUMPDEST", 0x5b),
   ("PUSH1", 0x60), ("PUSH2", 0x61), ("PUSH3", 0x62), ("PUSH4", 0x63),
   ("PUSH5", 0x64), ("PUSH6", 0x65), ("PUSH7", 0x66), ("PUSH8", 0x67),
   ("PUSH9", 0x68), ("PUSH10", 0x69), ("PUSH11", 0x6a), ("PUSH12", 0x6b),
   ("PUSH13", 0x6c), ("PUSH14", 0x6d), ("PUSH15", 0x6e), ("PUSH16", 0x6f),
   ("PUSH17", 0x70), ("PUSH18", 0x71), ("PUSH19", 0x72), ("PUSH20", 0x73),
   ("PUSH21", 0x74), ("PUSH22", 0x75), ("PUSH23", 0x76), ("PUSH24", 0x77),
   ("PUSH25", 0x78), ("PUSH26", 0x79), ("PUSH27", 0x7a), ("PUSH28", 0x7b),
   ("PUSH29", 0x7c), ("PUSH30", 0x7d), ("PUSH31", 0x7e), ("PUSH32", 0x7f),
   ("DUP1", 0x80), ("DUP2", 0x81), ("DUP3", 0x82), ("DUP4", 0x83), ("DUP5", 0x84),
   ("DUP6", 0x85), ("DUP7", 0x86), ("DUP8", 0x87), ("DUP9", 0x88), ("DUP10", 0x89),
   ("DUP11", 0x8a), ("DUP12", 0x8b), ("DUP13", 0x8c), ("DUP14", 0x8d),
   ("DUP15", 0x8e), ("DUP16", 0x8f), ("SWAP1", 0x90), ("SWAP2", 0x91),
   ("SWAP3", 0x92), ("SWAP4", 0x93), ("SWAP5", 0x94), ("SWAP6", 0x95),
   ("SWAP7", 0x96), ("SWAP8", 0x97), ("SWAP9", 0x98), ("SWAP10", 0x99),
   ("SWAP11", 0x9a), ("SWAP12", 0x9b), ("SWAP13", 0x9c), ("SWAP14", 0x9d),
   ("SWAP15", 0x9e), ("SWAP16", 0x9f), ("RETURN", 0xf3), ("REVERT", 0xfd),
   ("INVALID", 0xfe)]

/-- `impl FromStr for Opcode`: the big `match` on the mnemonic, with
`_ => Err(Error::OpcodeParsing)` as the fallthrough arm. -/
def Opcode.from_str (s : String) : PResult Opcode :=
  match opcodeNameTable.lookup s with
  | some v => .ok ⟨v⟩
  | none => .error .OpcodeParsing

/-- Read/write kind of a bus operation. -/
inductive RW where
  | READ
  | WRITE
deriving DecidableEq

/-- Storage domain touched by a bus operation. -/
inductive Target where
  | Memory
  | Stack
  | Storage
deriving DecidableEq

/-- `Opcode::target_and_rw` is `unimplemented!()` in the source: every call
panics, for every opcode. -/
def Opcode.target_and_rw (_ : Opcode) : PResult (RW × Target) := .panicked

/-- `Instruction { opcode, assoc_value }`. -/
structure Instruction where
  opcode : Opcode
  assoc_value : Option EvmWord
deriving DecidableEq

/-- Accumulating worker for `str::split_whitespace` (empty chunks dropped). -/
def splitWsAux : List Char → List Char → List String
  | [], cur => if cur.isEmpty then [] else [String.mk cur.reverse]
  | c :: rest, cur =>
    if c.isWhitespace then
      if cur.isEmpty then splitWsAux rest []
      else String.mk cur.reverse :: splitWsAux rest []
    else splitWsAux rest (c :: cur)

/-- Model of `s.split_whitespace().collect::<Vec<_>>()`. -/
def split_whitespace (s : String) : List String := splitWsAux s.data []

/-- `impl FromStr for Instruction`: split on whitespace, parse `words.get(1)`
as an optional associated word first (`?`-propagating its failure), then
index `words[0]` — which panics when the token list is empty — and parse it
as an opcode.  Tokens beyond the second are never inspected. -/
def Instruction.from_str (s : String) : PResult Instruction :=
  let words := split_whitespace s
  let valRes : PResult (Option EvmWord) :=
    match words.get? 1 with
    | some v => (EvmWord.from_str v).bind fun w => .ok (some w)
    | none => .ok none
  valRes.bind fun val =>
    match words.get? 0 with
    | some w0 => (Opcode.from_str w0).bind fun op => .ok ⟨op, val⟩
    | none => .panicked

/-- `BTreeMap::insert` on a strictly-key-sorted association list. -/
def btreeInsert (k : MemAddress) (v : EvmWord) :
    List (MemAddress × EvmWord) → List (MemAddress × EvmWord)
  | [] => [(k, v)]
  | x :: rest =>
    if k.val < x.1.val then (k, v) :: x :: rest
    else if k.val = x.1.val then (k, v) :: rest
    else x :: btreeInsert k v rest

/-- The `BTreeMap` representation invariant: keys strictly increasing. -/
def SortedKeys (m : List (MemAddress × EvmWord)) : Prop :=
  m.Pairwise fun x y => x.1.val < y.1.val

/-- Canonical `ExecutionStep`: the `BTreeMap` memory is a key-sorted list. -/
structure ExecutionStep where
  memory : List (MemAddress × EvmWord)
  stack : List EvmWord
  opcode : Instruction
  pc : ProgramCounter
  gc : GlobalCounter
deriving DecidableEq

/-- Raw trace element (`ParsedExecutionStep`), its `HashMap` memory taken in
the iteration order the hash map happens to yield. -/
structure ParsedExecutionStep where
  memory : List (String × String)
  stack : List String
  opcode : String
  pc : ProgramCounter
deriving DecidableEq

/-- The memory loop of `ExecutionStep::try_from`: for each entry, parse the
address then the word (either failure `?`-propagates), and insert. -/
def parseMemory :
    List (String × String) → List (MemAddress × EvmWord) →
    PResult (List (MemAddress × EvmWord))
  | [], acc => .ok acc
  | kv :: rest, acc =>
    (MemAddress.from_str kv.1).bind fun a =>
    (EvmWord.from_str kv.2).bind fun w =>
    parseMemory rest (btreeInsert a w acc)

/-- The stack loop of `ExecutionStep::try_from`: parse each word in order. -/
def parseStack : List String → PResult (List EvmWord)
  | [] => .ok []
  | v :: rest =>
    (EvmWord.from_str v).bind fun w =>
    (parseStack rest).bind fun ws => .ok (w :: ws)

/-- `ExecutionStep::try_from((parsed, gc))`: memory, then stack, then the
instruction text; first failure aborts the conversion. -/
def ExecutionStep.try_from (p : ParsedExecutionStep) (gc : GlobalCounter) :
    PResult ExecutionStep :=
  (parseMemory p.memory []).bind fun mem =>
  (parseStack p.stack).bind fun stk =>
  (Instruction.from_str p.opcode).bind fun ins =>
  .ok ⟨mem, stk, ins, p.pc, gc⟩

/-- Worker for the ingestion loop, carrying the next sequence number. -/
def parse_execution_trace_aux :
    Nat → List ParsedExecutionStep → PResult (List ExecutionStep)
  | _, [] => .ok []
  | k, p :: rest =>
    (ExecutionStep.try_from p ⟨k⟩).bind fun st =>
    (parse_execution_trace_aux (k + 1) rest).bind fun sts => .ok (st :: sts)

/-- The ingestion loop of the crate
(`.iter().enumerate().map(|(idx, step)| try_from((step, GlobalCounter(idx)))).collect()`):
each element is converted with its zero-based index as sequence number, and
the first failure aborts the whole collection. -/
def parse_execution_trace (t : List ParsedExecutionStep) :
    PResult (List ExecutionStep) :=
  parse_execution_trace_aux 0 t

/-- Modelled from the spec: the WordCodec encoder is absent from src (the
crate defines only `FromStr` decoders); per the spec the canonical textual
form of a word is its minimal lowercase base-16 representation. -/
def encode (w : EvmWord) : String :=
  if w.val = 0 then "0"
  else String.mk (((Nat.digits 16 w.val).map Nat.digitChar).reverse)

lemma charDigitVal_digitChar : ∀ d, d < 16 → (charDigitVal (Nat.digitChar d)).getD 0 = d := by
  decide

lemma hexDigit_digitChar : ∀ d, d < 16 → HexDigit (Nat.digitChar d) := by
  decide

lemma hexDigit_elim {c : Char} (hc : HexDigit c) :
    ∃ d, charDigitVal c = some d ∧ d < 16 := by
  unfold HexDigit at hc
  cases hcv : charDigitVal c with
  | none => rw [hcv] at hc; simp at hc
  | some d => rw [hcv] at hc; exact ⟨d, rfl, by simpa using hc⟩

lemma hexDigit_ne_plus {c : Char} (hc : HexDigit c) : c ≠ '+' := by
  rintro rfl; revert hc; decide

lemma hexDigit_ne_underscore {c : Char} (hc : HexDigit c) : c ≠ '_' := by
  rintro rfl; revert hc; decide

lemma hexValue_nil : hexValue [] = 0 := by
  simp [hexValue, Nat.ofDigits_nil]

lemma hexValue_cons (c : Char) (rest : List Char) :
    hexValue (c :: rest) = hexValue rest + 16 ^ rest.length * ((charDigitVal c).getD 0) := by
  simp [hexValue, Nat.ofDigits_append, Nat.ofDigits_cons, Nat.ofDigits_nil]

lemma from_str_radix_16_core_all_hex :
    ∀ (cs : List Char) (acc : Nat), (∀ c ∈ cs, HexDigit c) →
      from_str_radix_16_core cs acc = some (acc * 16 ^ cs.length + hexValue cs) := by
  intro cs
  induction cs with
  | nil => intro acc _; simp [from_str_radix_16_core, hexValue_nil]
  | cons c rest ih =>
    intro acc h
    have hc : HexDigit c := h c (by simp)
    obtain ⟨d, hd, hlt⟩ := hexDigit_elim hc
    have hne : c ≠ '_' := hexDigit_ne_underscore hc
    rw [from_str_radix_16_core, if_neg hne, hd]
    simp only [if_pos hlt]
    rw [ih (16 * acc + d) (fun x hx => h x (by simp [hx]))]
    congr 1
    rw [hexValue_cons, hd]
    simp only [Option.getD_some, List.length_cons]
    ring

lemma strip_plus_no_plus {c : Char} {rest : List Char} (h : c ≠ '+') :
    strip_plus (c :: rest) = c :: rest := by
  simp [strip_plus, h]

lemma from_str_radix_16_all_hex (s : String) (h1 : s.data ≠ [])
    (h2 : ∀ c ∈ s.data, HexDigit c) :
    from_str_radix_16 s = some (hexValue s.data) := by
  obtain ⟨c, rest, hcs⟩ : ∃ c rest, s.data = c :: rest := by
    cases hd : s.data with
    | nil => exact absurd hd h1
    | cons c rest => exact ⟨c, rest, rfl⟩
  have hc : HexDigit c := h2 c (by rw [hcs]; simp)
  unfold from_str_radix_16
  rw [hcs, strip_plus_no_plus (hexDigit_ne_plus hc)]
  show (if c = '_' then none else from_str_radix_16_core (c :: rest) 0) = _
  rw [if_neg (hexDigit_ne_underscore hc),
    from_str_radix_16_core_all_hex (c :: rest) 0 (by rw [hcs] at h2; exact h2)]
  rw [← hcs]
  simp

/-- Claim C1 (amended): `EvmWord::from_str` applies no canonical-bit-width
bound at all: every nonempty string of base-16 digits decodes successfully
to its exact numeric value, however large; only non-base-16 text fails. -/
theorem C1_evm_word_decode_unbounded (s : String) (h1 : s.data ≠ [])
    (h2 : ∀ c ∈ s.data, HexDigit c) :
    EvmWord.from_str s = .ok ⟨hexValue s.data⟩ := by
  unfold EvmWord.from_str
  rw [from_str_radix_16_all_hex s h1 h2]

/-- Claim C1, counterexample to the claim as stated: the 65-digit hex text
with numeric value 2^256 (not representable in 256 bits) decodes
successfully instead of failing; nothing is truncated. -/
theorem C1_counterexample :
    EvmWord.from_str
        "10000000000000000000000000000000000000000000000000000000000000000"
      = .ok ⟨2 ^ 256⟩ ∧ 2 ^ 256 ≤ (2 ^ 256 : Nat) := by
  exact ⟨by decide, le_refl _⟩

/-- Claim C1, witness: the amended theorem applied at the concrete input
`"ff"`, whose decode yields exactly 255. -/
theorem C1_witness :
    EvmWord.from_str "ff" = .ok ⟨hexValue (String.data "ff")⟩ ∧
      hexValue (String.data "ff") = 255 :=
  ⟨C1_evm_word_decode_unbounded "ff" (by decide) (by decide), by decide⟩

/-- Claim C2 (amended): `Opcode::target_and_rw` is `unimplemented!()`:
looking up the static semantics of any opcode panics; no opcode value is
covered. -/
theorem C2_target_and_rw_unimplemented :
    ∀ op : Opcode, Opcode.target_and_rw op = .panicked :=
  fun _ => rfl

/-- Claim C2, counterexample to the claim as stated: `ADD` is defined by the
mnemonic table (byte 0x01), yet looking up its static semantics panics
instead of returning an access descriptor. -/
theorem C2_counterexample :
    opcodeNameTable.lookup "ADD" = some 0x01 ∧
      Opcode.target_and_rw ⟨0x01⟩ = .panicked :=
  ⟨by decide, rfl⟩

lemma encode_data_of_ne_zero {n : Nat} (h0 : n ≠ 0) :
    (encode ⟨n⟩).data = ((Nat.digits 16 n).map Nat.digitChar).reverse := by
  unfold encode
  rw [if_neg h0]

lemma hexValue_encode {n : Nat} (h0 : n ≠ 0) :
    hexValue ((encode ⟨n⟩).data) = n := by
  rw [encode_data_of_ne_zero h0]
  unfold hexValue
  rw [List.map_reverse, List.reverse_reverse, List.map_map]
  have hcongr :
      (Nat.digits 16 n).map ((fun c => (charDigitVal c).getD 0) ∘ Nat.digitChar)
        = (Nat.digits 16 n).map id := by
    apply List.map_congr_left
    intro d hd
    have hlt : d < 16 := Nat.digits_lt_base (by norm_num) hd
    simpa using charDigitVal_digitChar d hlt
  rw [hcongr, List.map_id, Nat.ofDigits_digits]

/-- Claim C3 (amended): the encoder is lossless and decoding inverts it:
for every word `w`, `decode (encode w) = Ok w`.  The round trip in the other
direction, `encode (decode v) = v`, holds only for `v` already in canonical
form (the decoder also accepts non-canonical spellings such as leading
zeros, which re-encode to different text). -/
theorem C3_decode_encode (w : EvmWord) : EvmWord.from_str (encode w) = .ok w := by
  obtain ⟨n⟩ := w
  by_cases h0 : n = 0
  · subst h0
    decide
  · have hne : (encode ⟨n⟩).data ≠ [] := by
      rw [encode_data_of_ne_zero h0]
      simp [Nat.digits_ne_nil_iff_ne_zero.mpr h0]
    have hhex : ∀ c ∈ (encode ⟨n⟩).data, HexDigit c := by
      rw [encode_data_of_ne_zero h0]
      intro c hc
      rw [List.mem_reverse, List.mem_map] at hc
      obtain ⟨d, hd, rfl⟩ := hc
      exact hexDigit_digitChar d (Nat.digits_lt_base (by norm_num) hd)
    unfold EvmWord.from_str
    rw [from_str_radix_16_all_hex _ hne hhex, hexValue_encode h0]

/-- Claim C3, counterexample to the claim as stated: the decoder accepts
`"00"`, but re-encoding the decoded word yields the canonical `"0"`, not the
original text: `encode (decode "00") ≠ "00"`. -/
theorem C3_counterexample :
    EvmWord.from_str "00" = .ok ⟨0⟩ ∧ encode ⟨0⟩ = "0" ∧ "0" ≠ "00" :=
  ⟨by decide, rfl, by decide⟩

/-- Claim C4 (amended): `MemAddress::from_str` is not total and addresses
are bounded by the host word: a nonempty base-16 string decodes to an
address only when its value fits in a `usize`; above `usize::MAX` the
misfired `.expect` panics instead of returning an error (non-base-16
strings do return the crate's parse error). -/
theorem C4_mem_address_decode (s : String) (h1 : s.data ≠ [])
    (h2 : ∀ c ∈ s.data, HexDigit c) :
    MemAddress.from_str s =
      if hexValue s.data ≤ USIZE_MAX then .ok ⟨hexValue s.data⟩ else .panicked := by
  unfold MemAddress.from_str
  rw [from_str_radix_16_all_hex s h1 h2]

/-- Claim C4, counterexample to the claim as stated: `"10000000000000000"`
is a valid base-16 string (value 2^64 > `usize::MAX`), yet decoding it
panics rather than returning an address or a `MalformedAddress` error. -/
theorem C4_counterexample :
    MemAddress.from_str "10000000000000000" = .panicked ∧
      from_str_radix_16 "10000000000000000" = some (2 ^ 64) :=
  ⟨by decide, by decide⟩

/-- Claim C4, witness: the amended theorem applied at `"ff"` (in range,
decodes to address 255) and at `"10000000000000000"` (out of range,
panics). -/
theorem C4_witness :
    MemAddress.from_str "ff" = .ok ⟨255⟩ ∧
      MemAddress.from_str "10000000000000000" = .panicked := by
  constructor
  · have h := C4_mem_address_decode "ff" (by decide) (by decide)
    rw [h]
    decide
  · have h := C4_mem_address_decode "10000000000000000" (by decide) (by decide)
    rw [h]
    decide

lemma PResult.isOk_iff {α : Type} {x : PResult α} :
    x.isOk = true ↔ ∃ a, x = .ok a := by
  cases x <;> simp [PResult.isOk]

lemma PResult.bind_eq_ok {α β : Type} {x : PResult α} {f : α → PResult β} {b : β} :
    x.bind f = .ok b ↔ ∃ a, x = .ok a ∧ f a = .ok b := by
  cases x <;> simp [PResult.bind]

lemma memAddress_from_str_error {s : String} {e : Error}
    (h : MemAddress.from_str s = .error e) : e = .EvmWordParsing := by
  unfold MemAddress.from_str at h
  split at h
  · split at h <;> simp at h
  · simpa using h.symm

lemma evmWord_from_str_error {s : String} {e : Error}
    (h : EvmWord.from_str s = .error e) : e = .EvmWordParsing := by
  unfold EvmWord.from_str at h
  split at h
  · simp at h
  · simpa using h.symm

lemma evmWord_from_str_ne_panicked (s : String) :
    EvmWord.from_str s ≠ .panicked := by
  unfold EvmWord.from_str
  split <;> simp

/-- Claim C5 (amended): `Instruction::from_str` performs no consistency
check between the opcode and the presence of an immediate: for any
recognized mnemonic, a parsable second token is always accepted as the
immediate and an absent second token is always accepted as no immediate,
regardless of what the opcode declares. -/
theorem C5_no_immediate_check :
    (∀ (s t1 t2 : String) (rest : List String) (op : Opcode) (w : EvmWord),
      split_whitespace s = t1 :: t2 :: rest →
      Opcode.from_str t1 = .ok op →
      EvmWord.from_str t2 = .ok w →
      Instruction.from_str s = .ok ⟨op, some w⟩) ∧
    (∀ (s t1 : String) (op : Opcode),
      split_whitespace s = [t1] →
      Opcode.from_str t1 = .ok op →
      Instruction.from_str s = .ok ⟨op, none⟩) := by
  constructor
  · intro s t1 t2 rest op w hsplit hop hw
    unfold Instruction.from_str
    rw [hsplit]
    simp [hop, hw, PResult.bind]
  · intro s t1 op hsplit hop
    unfold Instruction.from_str
    rw [hsplit]
    simp [hop, PResult.bind]

/-- Claim C5, counterexample to the claim as stated: `ADD` declares no
immediate yet `"ADD 5"` decodes successfully, and `PUSH1` should carry one
yet bare `"PUSH1"` decodes successfully — neither mismatch is a failure. -/
theorem C5_counterexample :
    Instruction.from_str "ADD 5" = .ok ⟨⟨0x01⟩, some ⟨5⟩⟩ ∧
      Instruction.from_str "PUSH1" = .ok ⟨⟨0x60⟩, none⟩ :=
  ⟨by decide, by decide⟩

/-- Claim C5, witness: the amended theorem applied at `"MUL 7"` and at
`"PUSH2"`. -/
theorem C5_witness :
    Instruction.from_str "MUL 7" = .ok ⟨⟨0x02⟩, some ⟨7⟩⟩ ∧
      Instruction.from_str "PUSH2" = .ok ⟨⟨0x61⟩, none⟩ :=
  ⟨C5_no_immediate_check.1 "MUL 7" "MUL" "7" [] ⟨0x02⟩ ⟨7⟩ (by decide) (by decide)
      (by decide),
    C5_no_immediate_check.2 "PUSH2" "PUSH2" ⟨0x61⟩ (by decide) (by decide)⟩

/-- Claim C10: on an opcode string with no whitespace-separated token
(empty or whitespace-only), `Instruction::from_str` panics on the
unconditional `words[0]` index instead of returning a decode error; and the
result depends only on the first two tokens, so any tokens after the second
are silently ignored. -/
theorem C10_empty_panics_extra_ignored :
    (∀ s : String, split_whitespace s = [] → Instruction.from_str s = .panicked) ∧
    (∀ (s s' t1 t2 : String) (rest : List String),
      split_whitespace s = t1 :: t2 :: rest →
      split_whitespace s' = [t1, t2] →
      Instruction.from_str s = Instruction.from_str s') := by
  constructor
  · intro s h
    unfold Instruction.from_str
    rw [h]
    simp [PResult.bind]
  · intro s s' t1 t2 rest h h'
    unfold Instruction.from_str
    rw [h, h']
    simp

/-- Claim C10, witness: the theorem applied at the empty and whitespace-only
strings (both panic), and at `"ADD 1 2"`, whose third token is ignored. -/
theorem C10_witness :
    Instruction.from_str "" = .panicked ∧
      Instruction.from_str "   " = .panicked ∧
      Instruction.from_str "ADD 1 2" = Instruction.from_str "ADD 1" :=
  ⟨C10_empty_panics_extra_ignored.1 "" (by decide),
    C10_empty_panics_extra_ignored.1 "   " (by decide),
    C10_empty_panics_extra_ignored.2 "ADD 1 2" "ADD 1" "ADD" "1" ["2"] (by decide)
      (by decide)⟩

lemma parseMemory_fails :
    ∀ (l : List (String × String)),
      (∀ kv ∈ l, MemAddress.from_str kv.1 ≠ .panicked) →
      (∃ kv ∈ l, MemAddress.from_str kv.1 = .error .EvmWordParsing ∨
        EvmWord.from_str kv.2 = .error .EvmWordParsing) →
      ∀ acc, parseMemory l acc = .error .EvmWordParsing := by
  intro l
  induction l with
  | nil => intro _ hfail; simp at hfail
  | cons kv rest ih =>
    intro hnp hfail acc
    unfold parseMemory
    cases haddr : MemAddress.from_str kv.1 with
    | error e =>
      have he := memAddress_from_str_error haddr
      subst he
      simp [PResult.bind]
    | panicked => exact absurd haddr (hnp kv (by simp))
    | ok a =>
      cases hw : EvmWord.from_str kv.2 with
      | error e =>
        have he := evmWord_from_str_error hw
        subst he
        simp [PResult.bind, haddr]
      | panicked => exact absurd hw (evmWord_from_str_ne_panicked kv.2)
      | ok w =>
        simp only [PResult.bind, haddr, hw]
        apply ih (fun kv' h' => hnp kv' (by simp [h']))
        rcases hfail with ⟨kv', hmem, hcase⟩
        rcases List.mem_cons.mp hmem with heq | htail
        · subst heq
          rcases hcase with hc | hc
          · rw [haddr] at hc; simp at hc
          · rw [hw] at hc; simp at hc
        · exact ⟨kv', htail, hcase⟩

lemma parse_aux_abort :
    ∀ (pre : List ParsedExecutionStep) (k : Nat) (p : ParsedExecutionStep)
      (post : List ParsedExecutionStep) (e : Error),
      (∀ j (hj : j < pre.length),
        (ExecutionStep.try_from (pre.get ⟨j, hj⟩) ⟨k + j⟩).isOk = true) →
      ExecutionStep.try_from p ⟨k + pre.length⟩ = .error e →
      parse_execution_trace_aux k (pre ++ p :: post) = .error e := by
  intro pre
  induction pre with
  | nil =>
    intro k p post e _ herr
    simp only [List.length_nil, Nat.add_zero] at herr
    simp only [List.nil_append, parse_execution_trace_aux, herr, PResult.bind]
  | cons q pre' ih =>
    intro k p post e hok herr
    have h0 : (ExecutionStep.try_from q ⟨k⟩).isOk = true := by
      have h := hok 0 (by simp)
      simpa using h
    obtain ⟨st, hst⟩ := PResult.isOk_iff.mp h0
    have hrec : parse_execution_trace_aux (k + 1) (pre' ++ p :: post) = .error e := by
      apply ih (k + 1) p post e
      · intro j hj
        have h := hok (j + 1) (by simpa using Nat.succ_lt_succ hj)
        have harith : k + (j + 1) = k + 1 + j := by omega
        simpa [harith] using h
      · have harith : k + 1 + pre'.length = k + (q :: pre').length := by
          simp [List.length_cons]; omega
        rw [show (⟨k + 1 + pre'.length⟩ : GlobalCounter) = ⟨k + (q :: pre').length⟩ by
          rw [harith]]
        exact herr
    have hstep : parse_execution_trace_aux k ((q :: pre') ++ p :: post)
        = (ExecutionStep.try_from q ⟨k⟩).bind fun st =>
          (parse_execution_trace_aux (k + 1) (pre' ++ p :: post)).bind
            fun sts => .ok (st :: sts) := by
      rw [List.cons_append]
      rfl
    rw [hstep, hst, hrec]
    simp [PResult.bind]

lemma parseStack_fails :
    ∀ (l : List String),
      (∃ v ∈ l, EvmWord.from_str v = .error .EvmWordParsing) →
      parseStack l = .error .EvmWordParsing := by
  intro l
  induction l with
  | nil => intro hfail; simp at hfail
  | cons v rest ih =>
    intro hfail
    unfold parseStack
    cases hw : EvmWord.from_str v with
    | error e =>
      have he := evmWord_from_str_error hw
      subst he
      simp [PResult.bind]
    | panicked => exact absurd hw (evmWord_from_str_ne_panicked v)
    | ok w =>
      have hfail' : ∃ v' ∈ rest, EvmWord.from_str v' = .error .EvmWordParsing := by
        rcases hfail with ⟨v', hmem, hv'⟩
        rcases List.mem_cons.mp hmem with rfl | htail
        · rw [hw] at hv'; simp at hv'
        · exact ⟨v', htail, hv'⟩
      simp [PResult.bind, hw, ih hfail']

lemma parseMemory_error_eq :
    ∀ (l : List (String × String)) (acc : List (MemAddress × EvmWord)) (e : Error),
      parseMemory l acc = .error e → e = .EvmWordParsing := by
  intro l
  induction l with
  | nil => intro acc e h; simp [parseMemory] at h
  | cons kv rest ih =>
    intro acc e h
    unfold parseMemory at h
    cases ha : MemAddress.from_str kv.1 with
    | error e' =>
      rw [ha] at h
      simp only [PResult.bind] at h
      obtain rfl : e' = e := by simpa using h
      exact memAddress_from_str_error ha
    | panicked => rw [ha] at h; simp [PResult.bind] at h
    | ok a =>
      rw [ha] at h
      simp only [PResult.bind] at h
      cases hw : EvmWord.from_str kv.2 with
      | error e' =>
        rw [hw] at h
        simp only [PResult.bind] at h
        obtain rfl : e' = e := by simpa using h
        exact evmWord_from_str_error hw
      | panicked => exact absurd hw (evmWord_from_str_ne_panicked kv.2)
      | ok w =>
        rw [hw] at h
        simp only [PResult.bind] at h
        exact ih _ e h

lemma parseMemory_panicked_inv :
    ∀ (l : List (String × String)) (acc : List (MemAddress × EvmWord)),
      parseMemory l acc = .panicked →
      ∃ kv ∈ l, MemAddress.from_str kv.1 = .panicked := by
  intro l
  induction l with
  | nil => intro acc h; simp [parseMemory] at h
  | cons kv rest ih =>
    intro acc h
    unfold parseMemory at h
    cases ha : MemAddress.from_str kv.1 with
    | panicked => exact ⟨kv, List.mem_cons_self kv rest, ha⟩
    | error e => rw [ha] at h; simp [PResult.bind] at h
    | ok a =>
      rw [ha] at h
      simp only [PResult.bind] at h
      cases hw : EvmWord.from_str kv.2 with
      | panicked => exact absurd hw (evmWord_from_str_ne_panicked kv.2)
      | error e => rw [hw] at h; simp [PResult.bind] at h
      | ok w =>
        rw [hw] at h
        simp only [PResult.bind] at h
        obtain ⟨kv', htail, hkv'⟩ := ih _ h
        exact ⟨kv', List.mem_cons_of_mem kv htail, hkv'⟩

/-- Claim C6: if any word or address text of a trace element fails to
decode — an address or word text of the memory mapping, or a word text of
the stack (with no entry driving the address parser into its overflow
panic) — converting the element fails with the crate's malformed-number
error `EvmWordParsing`, no `ExecutionStep` is produced, and ingesting any
trace containing that element (all earlier elements converting fine) aborts
with that same first error. -/
theorem C6_decode_failure_aborts (p : ParsedExecutionStep) (gc : GlobalCounter)
    (hnp : ∀ kv ∈ p.memory, MemAddress.from_str kv.1 ≠ .panicked)
    (hfail : (∃ kv ∈ p.memory,
        MemAddress.from_str kv.1 = .error .EvmWordParsing ∨
          EvmWord.from_str kv.2 = .error .EvmWordParsing) ∨
      ∃ v ∈ p.stack, EvmWord.from_str v = .error .EvmWordParsing) :
    ExecutionStep.try_from p gc = .error .EvmWordParsing ∧
    ∀ (pre post : List ParsedExecutionStep),
      (∀ j (hj : j < pre.length),
        (ExecutionStep.try_from (pre.get ⟨j, hj⟩) ⟨j⟩).isOk = true) →
      parse_execution_trace (pre ++ p :: post) = .error .EvmWordParsing := by
  have htry : ∀ gc' : GlobalCounter,
      ExecutionStep.try_from p gc' = .error .EvmWordParsing := by
    intro gc'
    unfold ExecutionStep.try_from
    rcases hfail with hmemf | hstkf
    · rw [parseMemory_fails p.memory hnp hmemf []]
      simp [PResult.bind]
    · cases hm : parseMemory p.memory [] with
      | error e =>
        obtain rfl := parseMemory_error_eq p.memory [] e hm
        simp [PResult.bind, hm]
      | panicked =>
        obtain ⟨kv, hkv, hp⟩ := parseMemory_panicked_inv p.memory [] hm
        exact absurd hp (hnp kv hkv)
      | ok m =>
        simp [PResult.bind, hm, parseStack_fails p.stack hstkf]
  refine ⟨htry gc, fun pre post hok => ?_⟩
  unfold parse_execution_trace
  apply parse_aux_abort pre 0 p post .EvmWordParsing
  · intro j hj
    simpa using hok j hj
  · simpa using htry ⟨pre.length⟩

/-- Claim C6, witness: the theorem applied twice — to a single-element
trace whose memory maps address `"40"` to the non-hex word `"zz"`, and to
one whose stack holds the non-hex word `"zz"`. -/
theorem C6_witness :
    (ExecutionStep.try_from ⟨[("40", "zz")], [], "JUMPDEST", ⟨53⟩⟩ ⟨0⟩
        = .error .EvmWordParsing ∧
      parse_execution_trace [⟨[("40", "zz")], [], "JUMPDEST", ⟨53⟩⟩]
        = .error .EvmWordParsing) ∧
    (ExecutionStep.try_from ⟨[], ["zz"], "JUMPDEST", ⟨53⟩⟩ ⟨0⟩
        = .error .EvmWordParsing ∧
      parse_execution_trace [⟨[], ["zz"], "JUMPDEST", ⟨53⟩⟩]
        = .error .EvmWordParsing) := by
  have h1 := C6_decode_failure_aborts ⟨[("40", "zz")], [], "JUMPDEST", ⟨53⟩⟩ ⟨0⟩
    (by decide) (Or.inl (by decide))
  have h2 := C6_decode_failure_aborts ⟨[], ["zz"], "JUMPDEST", ⟨53⟩⟩ ⟨0⟩
    (by decide) (Or.inr (by decide))
  refine ⟨⟨h1.1, ?_⟩, ⟨h2.1, ?_⟩⟩
  · have hp1 := h1.2 [] [] (by intro j hj; exact absurd hj (by simp))
    simpa using hp1
  · have hp2 := h2.2 [] [] (by intro j hj; exact absurd hj (by simp))
    simpa using hp2

lemma parseMemory_all_ok :
    ∀ (l : List (String × String)),
      (∀ kv ∈ l, (MemAddress.from_str kv.1).isOk = true ∧
        (EvmWord.from_str kv.2).isOk = true) →
      ∀ acc, ∃ m, parseMemory l acc = .ok m := by
  intro l
  induction l with
  | nil => intro _ acc; exact ⟨acc, rfl⟩
  | cons kv rest ih =>
    intro h acc
    obtain ⟨a, ha⟩ := PResult.isOk_iff.mp (h kv (by simp)).1
    obtain ⟨w, hw⟩ := PResult.isOk_iff.mp (h kv (by simp)).2
    obtain ⟨m, hm⟩ := ih (fun kv' h' => h kv' (by simp [h'])) (btreeInsert a w acc)
    exact ⟨m, by unfold parseMemory; rw [ha]; simpa [PResult.bind, hw] using hm⟩

lemma parseStack_all_ok :
    ∀ (l : List String), (∀ v ∈ l, (EvmWord.from_str v).isOk = true) →
      ∃ ws, parseStack l = .ok ws := by
  intro l
  induction l with
  | nil => exact fun _ => ⟨[], rfl⟩
  | cons v rest ih =>
    intro h
    obtain ⟨w, hw⟩ := PResult.isOk_iff.mp (h v (by simp))
    obtain ⟨ws, hws⟩ := ih (fun v' h' => h v' (by simp [h']))
    exact ⟨w :: ws, by unfold parseStack; rw [hw]; simp [PResult.bind, hws]⟩

/-- Claim C7: a first token with no arm in the mnemonic table makes
`Opcode::from_str` fail with the crate's unknown-opcode error
`OpcodeParsing`; a step carrying such an opcode text (all its words and
addresses decoding fine) fails to convert, and ingesting any trace
containing it (all earlier elements converting fine) aborts at that step
with the same error, producing no canonical step for it. -/
theorem C7_unknown_opcode_aborts (p : ParsedExecutionStep) (gc : GlobalCounter)
    (tok : String) (rest : List String)
    (hmem : ∀ kv ∈ p.memory, (MemAddress.from_str kv.1).isOk = true ∧
      (EvmWord.from_str kv.2).isOk = true)
    (hstk : ∀ v ∈ p.stack, (EvmWord.from_str v).isOk = true)
    (htok : split_whitespace p.opcode = tok :: rest)
    (hunk : opcodeNameTable.lookup tok = none)
    (hval : rest = [] ∨ ∃ (t2 : String) (rest2 : List String),
      rest = t2 :: rest2 ∧ (EvmWord.from_str t2).isOk = true) :
    Opcode.from_str tok = .error .OpcodeParsing ∧
    ExecutionStep.try_from p gc = .error .OpcodeParsing ∧
    ∀ (pre post : List ParsedExecutionStep),
      (∀ j (hj : j < pre.length),
        (ExecutionStep.try_from (pre.get ⟨j, hj⟩) ⟨j⟩).isOk = true) →
      parse_execution_trace (pre ++ p :: post) = .error .OpcodeParsing := by
  have hop : Opcode.from_str tok = .error .OpcodeParsing := by
    unfold Opcode.from_str
    rw [hunk]
  have hins : Instruction.from_str p.opcode = .error .OpcodeParsing := by
    unfold Instruction.from_str
    rw [htok]
    rcases hval with hnil | ⟨t2, rest2, hrest, hok2⟩
    · subst hnil
      simp [PResult.bind, hop]
    · subst hrest
      obtain ⟨w, hw⟩ := PResult.isOk_iff.mp hok2
      simp [PResult.bind, hop, hw]
  have htry : ∀ gc' : GlobalCounter,
      ExecutionStep.try_from p gc' = .error .OpcodeParsing := by
    intro gc'
    unfold ExecutionStep.try_from
    obtain ⟨m, hm⟩ := parseMemory_all_ok p.memory hmem []
    obtain ⟨ws, hws⟩ := parseStack_all_ok p.stack hstk
    rw [hm]
    simp [PResult.bind, hws, hins]
  refine ⟨hop, htry gc, fun pre post hok => ?_⟩
  unfold parse_execution_trace
  apply parse_aux_abort pre 0 p post .OpcodeParsing
  · intro j hj
    simpa using hok j hj
  · simpa using htry ⟨pre.length⟩

/-- Claim C7, witness: the theorem applied to a single-element trace whose
opcode text is `"SLOAD"` — a mnemonic the table does not cover. -/
theorem C7_witness :
    Opcode.from_str "SLOAD" = .error .OpcodeParsing ∧
      ExecutionStep.try_from ⟨[], [], "SLOAD", ⟨10⟩⟩ ⟨0⟩ = .error .OpcodeParsing ∧
      parse_execution_trace [⟨[], [], "SLOAD", ⟨10⟩⟩] = .error .OpcodeParsing := by
  have h := C7_unknown_opcode_aborts ⟨[], [], "SLOAD", ⟨10⟩⟩ ⟨0⟩ "SLOAD" []
    (by decide) (by decide) (by decide) (by decide) (Or.inl rfl)
  refine ⟨h.1, h.2.1, ?_⟩
  have h2 := h.2.2 [] [] (by intro j hj; exact absurd hj (by simp))
  simpa using h2

lemma try_from_ok_inv {p : ParsedExecutionStep} {gc : GlobalCounter}
    {st : ExecutionStep} (h : ExecutionStep.try_from p gc = .ok st) :
    parseMemory p.memory [] = .ok st.memory ∧ parseStack p.stack = .ok st.stack ∧
      Instruction.from_str p.opcode = .ok st.opcode ∧ st.pc = p.pc ∧ st.gc = gc := by
  unfold ExecutionStep.try_from at h
  obtain ⟨mem, hmem, h⟩ := PResult.bind_eq_ok.mp h
  obtain ⟨stk, hstk, h⟩ := PResult.bind_eq_ok.mp h
  obtain ⟨ins, hins, h⟩ := PResult.bind_eq_ok.mp h
  obtain rfl : (⟨mem, stk, ins, p.pc, gc⟩ : ExecutionStep) = st := by simpa using h
  exact ⟨hmem, hstk, hins, rfl, rfl⟩

lemma parse_aux_gc :
    ∀ (t : List ParsedExecutionStep) (k : Nat) (steps : List ExecutionStep),
      parse_execution_trace_aux k t = .ok steps →
      steps.length = t.length ∧
        ∀ i (hi : i < steps.length), (steps.get ⟨i, hi⟩).gc = ⟨k + i⟩ := by
  intro t
  induction t with
  | nil =>
    intro k steps h
    obtain rfl : ([] : List ExecutionStep) = steps := by
      simpa [parse_execution_trace_aux] using h
    exact ⟨rfl, fun i hi => absurd hi (by simp)⟩
  | cons p rest ih =>
    intro k steps h
    unfold parse_execution_trace_aux at h
    obtain ⟨st, hst, h⟩ := PResult.bind_eq_ok.mp h
    obtain ⟨sts, hsts, h⟩ := PResult.bind_eq_ok.mp h
    obtain rfl : st :: sts = steps := by simpa using h
    obtain ⟨hlen, hgc⟩ := ih (k + 1) sts hsts
    refine ⟨by simp [hlen], fun i hi => ?_⟩
    cases i with
    | zero =>
      have := (try_from_ok_inv hst).2.2.2.2
      simpa using this
    | succ i' =>
      have hi' : i' < sts.length := by simpa using hi
      have := hgc i' hi'
      have harith : k + 1 + i' = k + (i' + 1) := by omega
      simpa [harith] using this

/-- Claim C8: ingestion assigns each step the zero-based index of its trace
element as its sequence number: a successfully ingested trace has as many
canonical steps as elements, and the i-th step carries `GlobalCounter i`
(the first step gets 0, each next exactly one more). -/
theorem C8_sequence_numbers (t : List ParsedExecutionStep)
    (steps : List ExecutionStep) (h : parse_execution_trace t = .ok steps) :
    steps.length = t.length ∧
      ∀ i (hi : i < steps.length), (steps.get ⟨i, hi⟩).gc = ⟨i⟩ := by
  obtain ⟨hlen, hgc⟩ := parse_aux_gc t 0 steps h
  exact ⟨hlen, fun i hi => by simpa using hgc i hi⟩

/-- Claim C8, witness: the theorem applied to the spec's single-step trace
`{memory: {}, stack: [], opcode: "JUMPDEST", pc: 53}`, which ingests to one
`ExecutionStep` whose sequence number is 0. -/
theorem C8_witness :
    parse_execution_trace [⟨[], [], "JUMPDEST", ⟨53⟩⟩]
        = .ok [⟨[], [], ⟨⟨0x5b⟩, none⟩, ⟨53⟩, ⟨0⟩⟩] ∧
      (([⟨[], [], ⟨⟨0x5b⟩, none⟩, ⟨53⟩, ⟨0⟩⟩] : List ExecutionStep).get
        ⟨0, by decide⟩).gc = ⟨0⟩ := by
  refine ⟨by decide, ?_⟩
  exact (C8_sequence_numbers [⟨[], [], "JUMPDEST", ⟨53⟩⟩]
    [⟨[], [], ⟨⟨0x5b⟩, none⟩, ⟨53⟩, ⟨0⟩⟩] (by decide)).2 0 (by decide)

lemma MemAddress.val_eq_iff {a b : MemAddress} : a = b ↔ a.val = b.val := by
  cases a; cases b; simp

lemma mem_btreeInsert {k : MemAddress} {v : EvmWord} :
    ∀ {m : List (MemAddress × EvmWord)} {x : MemAddress × EvmWord},
      x ∈ btreeInsert k v m → x = (k, v) ∨ x ∈ m := by
  intro m
  induction m with
  | nil => intro x hx; simp [btreeInsert] at hx; exact Or.inl hx
  | cons y rest ih =>
    intro x hx
    unfold btreeInsert at hx
    split at hx
    · rcases List.mem_cons.mp hx with h | h
      · exact Or.inl h
      · exact Or.inr h
    · split at hx
      · rcases List.mem_cons.mp hx with h | h
        · exact Or.inl h
        · exact Or.inr (List.mem_cons_of_mem y h)
      · rcases List.mem_cons.mp hx with h | h
        · exact Or.inr (by simp [h])
        · rcases ih h with h' | h'
          · exact Or.inl h'
          · exact Or.inr (by simp [h'])

lemma sortedKeys_btreeInsert {k : MemAddress} {v : EvmWord} :
    ∀ {m : List (MemAddress × EvmWord)}, SortedKeys m →
      SortedKeys (btreeInsert k v m) := by
  intro m
  induction m with
  | nil => intro _; simp [btreeInsert, SortedKeys]
  | cons y rest ih =>
    intro hs
    rw [SortedKeys, List.pairwise_cons] at hs
    obtain ⟨hy, hrest⟩ := hs
    unfold btreeInsert
    split
    · next hlt =>
      rw [SortedKeys, List.pairwise_cons]
      refine ⟨?_, List.pairwise_cons.mpr ⟨hy, hrest⟩⟩
      intro x hx
      rcases List.mem_cons.mp hx with rfl | h
      · exact hlt
      · exact lt_trans hlt (hy x h)
    · split
      · next heq =>
        rw [SortedKeys, List.pairwise_cons]
        exact ⟨fun x hx => heq ▸ hy x hx, hrest⟩
      · next hnlt hne =>
        have hylt : y.1.val < k.val := by omega
        rw [SortedKeys, List.pairwise_cons]
        refine ⟨?_, ih hrest⟩
        intro x hx
        rcases mem_btreeInsert hx with rfl | h
        · exact hylt
        · exact hy x h

lemma mem_btreeInsert_iff {k : MemAddress} {v : EvmWord} :
    ∀ {m : List (MemAddress × EvmWord)} {x : MemAddress × EvmWord},
      SortedKeys m →
      (x ∈ btreeInsert k v m ↔ x = (k, v) ∨ (x ∈ m ∧ x.1 ≠ k)) := by
  intro m
  induction m with
  | nil => intro x _; simp [btreeInsert]
  | cons y rest ih =>
    intro x hs
    rw [SortedKeys, List.pairwise_cons] at hs
    obtain ⟨hy, hrest⟩ := hs
    unfold btreeInsert
    split
    · next hlt =>
      constructor
      · intro hx
        rcases List.mem_cons.mp hx with rfl | h
        · exact Or.inl rfl
        · refine Or.inr ⟨h, fun he => ?_⟩
          have hk : k.val < x.1.val := by
            rcases List.mem_cons.mp h with rfl | h'
            · exact hlt
            · exact lt_trans hlt (hy x h')
          rw [he] at hk
          omega
      · rintro (rfl | ⟨h, _⟩)
        · simp
        · simp [h]
    · split
      · next heq =>
        constructor
        · intro hx
          rcases List.mem_cons.mp hx with rfl | h
          · exact Or.inl rfl
          · refine Or.inr ⟨List.mem_cons_of_mem y h, fun he => ?_⟩
            have hk : y.1.val < x.1.val := hy x h
            rw [he] at hk
            omega
        · rintro (rfl | ⟨h, hne⟩)
          · simp
          · rcases List.mem_cons.mp h with rfl | h'
            · exact absurd (MemAddress.val_eq_iff.mpr (by omega)) hne
            · simp [h']
      · next hnlt hne =>
        have hylt : y.1.val < k.val := by omega
        constructor
        · intro hx
          rcases List.mem_cons.mp hx with rfl | h
          · refine Or.inr ⟨by simp, fun he => ?_⟩
            rw [MemAddress.val_eq_iff] at he
            omega
          · rcases (ih hrest).mp h with rfl | ⟨h', hxne⟩
            · exact Or.inl rfl
            · exact Or.inr ⟨List.mem_cons_of_mem y h', hxne⟩
        · rintro (rfl | ⟨h, hxne⟩)
          · exact List.mem_cons_of_mem y ((ih hrest).mpr (Or.inl rfl))
          · rcases List.mem_cons.mp h with rfl | h'
            · exact List.mem_cons_self x (btreeInsert k v rest)
            · exact List.mem_cons_of_mem y ((ih hrest).mpr (Or.inr ⟨h', hxne⟩))

lemma parseStack_spec :
    ∀ {l : List String} {ws : List EvmWord}, parseStack l = .ok ws →
      ws.length = l.length ∧
        ∀ i (h1 : i < l.length) (h2 : i < ws.length),
          EvmWord.from_str (l.get ⟨i, h1⟩) = .ok (ws.get ⟨i, h2⟩) := by
  intro l
  induction l with
  | nil =>
    intro ws h
    obtain rfl : ([] : List EvmWord) = ws := by simpa [parseStack] using h
    exact ⟨rfl, fun i h1 _ => absurd h1 (by simp)⟩
  | cons v rest ih =>
    intro ws h
    unfold parseStack at h
    obtain ⟨w, hw, h⟩ := PResult.bind_eq_ok.mp h
    obtain ⟨ws', hws', h⟩ := PResult.bind_eq_ok.mp h
    obtain rfl : w :: ws' = ws := by simpa using h
    obtain ⟨hlen, hget⟩ := ih hws'
    refine ⟨by simp [hlen], fun i h1 h2 => ?_⟩
    cases i with
    | zero => simpa using hw
    | succ i' =>
      have h1' : i' < rest.length := by simpa using h1
      have h2' : i' < ws'.length := by simpa using h2
      simpa using hget i' h1' h2'

lemma parseMemory_mem_iff :
    ∀ (l : List (String × String)) (acc m : List (MemAddress × EvmWord)),
      SortedKeys acc →
      l.Pairwise (fun kv kv' => MemAddress.from_str kv.1 ≠ MemAddress.from_str kv'.1) →
      (∀ kv ∈ l, ∀ a : MemAddress, MemAddress.from_str kv.1 = .ok a →
        ∀ x ∈ acc, x.1 ≠ a) →
      parseMemory l acc = .ok m →
      ∀ x : MemAddress × EvmWord,
        x ∈ m ↔ (x ∈ acc ∨ ∃ kv ∈ l, MemAddress.from_str kv.1 = .ok x.1 ∧
          EvmWord.from_str kv.2 = .ok x.2) := by
  intro l
  induction l with
  | nil =>
    intro acc m _ _ _ h x
    obtain rfl : acc = m := by simpa [parseMemory] using h
    simp
  | cons kv rest ih =>
    intro acc m hsort hpw hdisj h x
    unfold parseMemory at h
    obtain ⟨a, ha, h⟩ := PResult.bind_eq_ok.mp h
    obtain ⟨w, hw, h⟩ := PResult.bind_eq_ok.mp h
    rw [List.pairwise_cons] at hpw
    obtain ⟨hhead, hrest⟩ := hpw
    have hsort' : SortedKeys (btreeInsert a w acc) := sortedKeys_btreeInsert hsort
    have hdisj' : ∀ kv' ∈ rest, ∀ a' : MemAddress,
        MemAddress.from_str kv'.1 = .ok a' →
        ∀ x' ∈ btreeInsert a w acc, x'.1 ≠ a' := by
      intro kv' hkv' a' ha' x' hx'
      rcases mem_btreeInsert hx' with rfl | hxacc
      · intro he
        apply hhead kv' hkv'
        rw [ha, ha']
        have hae : a = a' := by simpa using he
        rw [hae]
      · exact hdisj kv' (List.mem_cons_of_mem kv hkv') a' ha' x' hxacc
    have hiff := ih (btreeInsert a w acc) m hsort' hrest hdisj' h x
    rw [hiff, mem_btreeInsert_iff hsort]
    constructor
    · rintro ((rfl | ⟨hacc, _⟩) | ⟨kv', hkv', ha', hw'⟩)
      · exact Or.inr ⟨kv, List.mem_cons_self kv rest, by simpa using ha,
          by simpa using hw⟩
      · exact Or.inl hacc
      · exact Or.inr ⟨kv', List.mem_cons_of_mem kv hkv', ha', hw'⟩
    · rintro (hacc | ⟨kv', hkv', ha', hw'⟩)
      · exact Or.inl (Or.inr ⟨hacc, hdisj kv (List.mem_cons_self kv rest) a ha x hacc⟩)
      · rcases List.mem_cons.mp hkv' with rfl | htail
        · left
          left
          have hx1 : x.1 = a := by
            rw [ha'] at ha
            simpa using ha
          have hx2 : x.2 = w := by
            rw [hw'] at hw
            simpa using hw
          calc x = (x.1, x.2) := rfl
            _ = (a, w) := by rw [hx1, hx2]
        · exact Or.inr ⟨kv', htail, ha', hw'⟩

/-- Claim C9: when a trace element converts successfully (and its memory
mapping keys denote distinct addresses, as a mapping's keys do), the
canonical step's stack is exactly the pointwise word-decoding of the input
stack in the same order and length, and its memory holds exactly the
decoded (address, word) pairs of the input mapping — nothing added or
dropped. -/
theorem C9_pointwise_decode (p : ParsedExecutionStep) (gc : GlobalCounter)
    (st : ExecutionStep) (hok : ExecutionStep.try_from p gc = .ok st)
    (hdis : p.memory.Pairwise
      (fun kv kv' => MemAddress.from_str kv.1 ≠ MemAddress.from_str kv'.1)) :
    (st.stack.length = p.stack.length ∧
      ∀ i (h1 : i < p.stack.length) (h2 : i < st.stack.length),
        EvmWord.from_str (p.stack.get ⟨i, h1⟩) = .ok (st.stack.get ⟨i, h2⟩)) ∧
    (∀ x : MemAddress × EvmWord, x ∈ st.memory ↔
      ∃ kv ∈ p.memory, MemAddress.from_str kv.1 = .ok x.1 ∧
        EvmWord.from_str kv.2 = .ok x.2) := by
  obtain ⟨hmem, hstk, _, _, _⟩ := try_from_ok_inv hok
  constructor
  · exact parseStack_spec hstk
  · intro x
    have h := parseMemory_mem_iff p.memory [] st.memory (by simp [SortedKeys])
      hdis (by intro kv _ a _ x' hx'; exact absurd hx' (List.not_mem_nil x')) hmem x
    simpa using h

/-- Claim C9, witness: the theorem applied to a concrete element with a
two-entry memory mapping and a two-word stack; the decoded stack keeps
order and length, and the decoded pair (0x40, 0x80) is in the memory. -/
theorem C9_witness :
    (⟨[(⟨0x00⟩, ⟨0x00⟩), (⟨0x40⟩, ⟨0x80⟩)], [⟨0x1d97c6efb⟩, ⟨0x80⟩],
        ⟨⟨0x50⟩, none⟩, ⟨84⟩, ⟨3⟩⟩ : ExecutionStep).stack.length
      = (⟨[("40", "80"), ("0", "0")], ["1d97c6efb", "80"], "POP", ⟨84⟩⟩ :
        ParsedExecutionStep).stack.length ∧
    ((⟨0x40⟩, ⟨0x80⟩) : MemAddress × EvmWord) ∈
      (⟨[(⟨0x00⟩, ⟨0x00⟩), (⟨0x40⟩, ⟨0x80⟩)], [⟨0x1d97c6efb⟩, ⟨0x80⟩],
        ⟨⟨0x50⟩, none⟩, ⟨84⟩, ⟨3⟩⟩ : ExecutionStep).memory := by
  have h := C9_pointwise_decode
    ⟨[("40", "80"), ("0", "0")], ["1d97c6efb", "80"], "POP", ⟨84⟩⟩ ⟨3⟩
    ⟨[(⟨0x00⟩, ⟨0x00⟩), (⟨0x40⟩, ⟨0x80⟩)], [⟨0x1d97c6efb⟩, ⟨0x80⟩],
      ⟨⟨0x50⟩, none⟩, ⟨84⟩, ⟨3⟩⟩
    (by decide) (by decide)
  refine ⟨h.1.1, ?_⟩
  exact (h.2 (⟨0x40⟩, ⟨0x80⟩)).mpr ⟨("40", "80"), by decide, by decide, by decide⟩
